import Mathlib

/-!
Verification of the key-pattern aggregation pipeline of the
redis-memory-analyzer repository (`rma/application.py`).

Strings are modelled as Lean `String` / `List Char`; Python `str.split`,
`str.join`, `str.startswith`, `str.endswith`, `re.sub(r':US:[^:]+', ':US:1', s)`
and `fnmatch.fnmatch` are each given an executable shallow embedding below.
The external collaborators (`SimpleSplitter`, the `rma.rule` analysis rule
classes, `rma.helpers.floored_percentage`, `rma.redis_types`) are not part of
`src/`; where a claim depends on them they are modelled from the spec, as
documented on the corresponding definitions.
-/

namespace Rma

/-- Embedding of Python `s.split(sep)` for a one-character separator:
splits on every occurrence of `sep`, keeping empty segments, and never
returns an empty list. -/
def splitChar (sep : Char) : List Char → List (List Char)
  | [] => [[]]
  | c :: cs =>
    match splitChar sep cs with
    | [] => [[]]
    | h :: t => if c = sep then [] :: h :: t else (c :: h) :: t

/-- Embedding of Python `sep.join(parts)` for a one-character separator. -/
def joinChar (sep : Char) : List (List Char) → List Char
  | [] => []
  | [x] => x
  | x :: xs => x ++ sep :: joinChar sep xs

/-- Embedding of Python `s.startswith(pre)`. -/
def hasPref : List Char → List Char → Bool
  | [], _ => true
  | _ :: _, [] => false
  | p :: ps, c :: cs => p = c && hasPref ps cs

/-- Embedding of Python `s.endswith(suf)`. -/
def hasSuff (suf s : List Char) : Bool :=
  hasPref suf.reverse s.reverse

/-- `isUS cs` holds iff the text after a `':'` reads `'US:'` followed by at
least one non-colon character, i.e. a match of `:US:[^:]+` starts at that
`':'` (the regex requires a nonempty run of non-colon characters). -/
def isUS : List Char → Bool
  | 'U' :: 'S' :: ':' :: d :: _ => d != ':'
  | _ => false

/-- One left-to-right pass of Python
`re.sub(r':US:[^:]+', ':US:1', s)`, consuming one character per step.
State `0` is the normal scan: a (leftmost) match starts iff the current
character is `':'` and `isUS` holds of the rest; matched text `':US:' +
run` is rewritten to `':US:1'` by copying the marker (states `3, 2, 1`
copy `'U'`, `'S'`, `':'`), emitting `'1'` for the first character of the
greedy `[^:]+` run (state `4`), and dropping the run's remaining non-colon
characters (state `5`).  The `':'` terminating a run is not part of the
match, so scanning resumes there and it may start the next
(non-overlapping) match. -/
def maskStep : List Char → Nat → List Char
  | [], _ => []
  | c :: cs, 0 => if c = ':' && isUS cs then c :: maskStep cs 3 else c :: maskStep cs 0
  | c :: cs, 3 => c :: maskStep cs 2
  | c :: cs, 2 => c :: maskStep cs 1
  | c :: cs, 1 => c :: maskStep cs 4
  | _ :: cs, 4 => '1' :: maskStep cs 5
  | c :: cs, _ =>
    if c = ':' then (if isUS cs then c :: maskStep cs 3 else c :: maskStep cs 0)
    else maskStep cs 5

/-- Embedding of the identifier-masking rewrite
`re.sub(r':US:[^:]+', ':US:1', name)` (application.py line 193/194). -/
def mask (s : String) : String :=
  ⟨maskStep s.data 0⟩

/-- Embedding of `ptransform` (application.py lines 18-36): the ordered,
first-match-wins structural transposition rules. -/
def ptransformL (nm : List Char) : List Char :=
  if hasPref "celery-task-meta".data nm then
    let spl := splitChar '-' nm
    joinChar '-' (spl.take 3) ++ ':' :: joinChar '-' (spl.drop 3)
  else if hasPref "qo_cli.aff_aggregations.aggregate_aff_aname_aname".data nm then
    let spl := splitChar '-' nm
    joinChar '-' (spl.take 1) ++ ':' :: joinChar '-' (spl.drop 1)
  else if hasSuff "_trigger_queue_user_job".data nm then
    let spl := splitChar '_' nm
    joinChar '_' (spl.drop 1) ++ ':' :: joinChar '_' (spl.take 1)
  else if hasSuff ".reply.celery.pidbox".data nm then
    let spl := splitChar '.' nm
    joinChar '.' (spl.drop 1) ++ ':' :: spl.headD []
  else if hasSuff "_user_queue_user_job".data nm then
    let spl := splitChar '_' nm
    joinChar '_' (spl.drop 1) ++ ':' :: spl.headD []
  else nm

/-- `ptransform` on `String`. -/
def ptransform (s : String) : String :=
  ⟨ptransformL s.data⟩

/-- Full normalization as performed at application.py line 194:
`ptransform(re.sub(r':US:[^:]+', ':US:1', name))`, i.e. identifier
masking followed by structural transposition. -/
def normalize (s : String) : String :=
  ptransform (mask s)

/-- Shell-style glob matching as used by `fnmatch.fnmatch` on the derived
templates: `*` matches any (possibly empty) run of characters, `?` matches
exactly one character, every other character matches itself literally
(spec section 4.2; the templates contain no `[...]` classes). Recursion is
on the pattern: `*` tries every suffix of the subject. -/
def globMatch : List Char → List Char → Bool
  | [], s => s.isEmpty
  | '*' :: ps, s => s.tails.any fun t => globMatch ps t
  | '?' :: ps, s =>
    match s with
    | [] => false
    | _ :: cs => globMatch ps cs
  | p :: ps, s =>
    match s with
    | [] => false
    | c :: cs => p = c && globMatch ps cs

/-- Embedding of `fnmatch.fnmatch(name, pattern)` (application.py line 201). -/
def fnmatch (name pat : String) : Bool :=
  globMatch pat.data name.data

/-- The five accepted value types (spec section 3; `rma.redis_types` ids). -/
inductive RedisType where
  | str
  | hash
  | list
  | set
  | zset
deriving DecidableEq

/-- Modelled from the spec: `type_id_to_redis_type` of the out-of-src
`rma.redis_types` module, mapping a type id to its lowercase name
(spec sections 3 and 8, scenario C: the "zset" entry). -/
def type_id_to_redis_type : RedisType → String
  | .str => "string"
  | .hash => "hash"
  | .list => "list"
  | .set => "set"
  | .zset => "zset"

/-- A scanned key record (spec section 3, KeyRecord; the dicts produced by
the scanner: `{'name': ..., 'type': ..., 'encoding': ..., 'ttl': ...}`). -/
structure KeyRecord where
  name : String
  type : RedisType
  encoding : Nat
  ttl : Int
deriving DecidableEq

/-- Embedding of `RmaApplication.get_pattern_aggregated_data`
(application.py lines 185-204), parametric in the splitter output
`split_patterns` (the `SimpleSplitter` collaborator is outside `src/`).
The `data[0]['type']` access of line 191 is modelled by the `head?`
guard: the result is `none` exactly when that access would fail.
For each pattern the member list is
`list(filter(lambda obj: fnmatch.fnmatch(ptransform(obj["name"]), pattern), data))`
— note line 201 applies `ptransform` but not the `:US:` masking. -/
def get_pattern_aggregated_data (data : List KeyRecord) (split_patterns : List String) :
    Option (List (String × List KeyRecord)) :=
  data.head?.map fun _ =>
    split_patterns.map fun pat =>
      (pat, data.filter fun obj => fnmatch (ptransform obj.name) pat)

/-- Modelled from the spec: the Pattern Deriver (`SimpleSplitter`, outside
`src/`) "returns the set of distinct wildcard templates that cover" the
normalized names handed to it (spec sections 2 and 6). `Covers tpls names`
states that every normalized name glob-matches at least one template. -/
def Covers (tpls names : List String) : Prop :=
  ∀ n ∈ names, ∃ t ∈ tpls, fnmatch n t = true

/-- One census row of the scanner branch:
`[k, len(v), r_type, floored_percentage(len(v) / total, 2)]`
(application.py line 166). -/
structure CensusRow where
  name : String
  count : Nat
  rtype : String
  percent : ℚ
deriving DecidableEq

/-- Modelled from the spec: `floored_percentage(v, 2)` of the out-of-src
`rma.helpers` module renders the fraction `v` as a percentage floored to
two decimal places (spec section 8: "percent equals
`floor(100 × count / min(dbsize, limit), 2 decimals)`"); the Python
float division of line 166 is modelled by exact rational arithmetic. -/
def flooredPercentage (v : ℚ) : ℚ :=
  (⌊v * 10000⌋ : ℚ) / 100

/-- Insert a row into a descending-by-`count` list, after all rows whose
count is at least as large: this is where a stable descending sort places
a newly appended element. -/
def insertDesc (r : CensusRow) : List CensusRow → List CensusRow
  | [] => [r]
  | x :: xs => if r.count ≤ x.count then x :: insertDesc r xs else r :: x :: xs

/-- The stable descending-by-`count` sort modelling Python's stable
`list.sort(key=lambda x: x[1], reverse=True)` (application.py line 167):
any stable sort produces this same output. -/
def stableSortDesc (l : List CensusRow) : List CensusRow :=
  l.foldl (fun acc r => insertDesc r acc) []

/-- The census rows in the order `do_scanner` appends them (iterating the
type buckets, then each bucket's template groups; application.py lines
160-166).  `dbsize` and `limit` give `total = min(r.dbsize(), self.limit)`
of line 159 (`limit` is the effective limit, `sys.maxsize` when the
configured limit is 0). -/
def censusRows (dbsize limit : Nat)
    (res : List (RedisType × List (String × List KeyRecord))) : List CensusRow :=
  res.flatMap fun tkv => tkv.2.map fun kv =>
    { name := kv.1
      count := kv.2.length
      rtype := type_id_to_redis_type tkv.1
      percent := flooredPercentage ((kv.2.length : ℚ) / ((min dbsize limit : Nat) : ℚ)) }

/-- Embedding of `RmaApplication.do_scanner` (application.py lines
157-169): each appended row is followed by an in-place stable descending
re-sort of the accumulated list. -/
def do_scanner (dbsize limit : Nat)
    (res : List (RedisType × List (String × List KeyRecord))) : List CensusRow :=
  (censusRows dbsize limit res).foldl (fun keys r => stableSortDesc (keys ++ [r])) []

/-- Python dict assignment `m[k] = v` on an insertion-ordered association
list: replaces the value of an existing key in place, else appends. -/
def dictSet {α : Type} : List (String × α) → String → α → List (String × α)
  | [], k, v => [(k, v)]
  | (k', v') :: rest, k, v =>
    if k' = k then (k, v) :: rest else (k', v') :: dictSet rest k v

/-- `total_keys = sum(len(values) for key, values in aggregate_patterns.items())`
(application.py line 179). -/
def total_keys (aggr : List (String × List KeyRecord)) : Nat :=
  (aggr.map fun kv => kv.2.length).sum

/-- The capability of an analysis rule as consumed by `do_ram`:
`rule.analyze(keys=aggregate_patterns, total=total_keys)` (spec section 6;
the rule classes live in the out-of-src `rma.rule` module and stay
abstract). -/
def RuleFun (Stat : Type) : Type :=
  List (String × List KeyRecord) → Nat → Stat

/-- Embedding of `RmaApplication.do_ram` (application.py lines 171-183):
for each scanned type bucket present in the accepted-type set, every
registered rule for that type is run in order and its output is written to
`ret[redis_type]` — the same dict slot each time.  (`key in
self.types_rules` is always true: the class-level dict carries all five
types, so the embedding keeps only the `key in self.types` test.) -/
def do_ram {Stat : Type} (types_rules : RedisType → List (RuleFun Stat))
    (accepted : List RedisType)
    (res : List (RedisType × List (String × List KeyRecord))) : List (String × Stat) :=
  res.foldl
    (fun ret tkv =>
      if tkv.1 ∈ accepted then
        (types_rules tkv.1).foldl
          (fun r2 rule => dictSet r2 (type_id_to_redis_type tkv.1) (rule tkv.2 (total_keys tkv.2)))
          ret
      else ret)
    []

/-- The identities of the rule classes registered by
`RmaApplication.init_types_rules` (application.py lines 109-120); the
classes themselves (`rma.rule`) are external collaborators. -/
inductive RuleTag where
  | keyString
  | valueString
  | hashRule
  | listRule
  | setRule
deriving DecidableEq

/-- Embedding of the registration order of
`RmaApplication.init_types_rules` (application.py lines 109-120):
`KeyString` then `ValueString` for STRING, `KeyString` then `Hash` for
HASH, `KeyString` then `List` for LIST, `KeyString` then `Set` for SET,
and only `KeyString` for ZSET. -/
def init_types_rules : RedisType → List RuleTag
  | .str => [.keyString, .valueString]
  | .hash => [.keyString, .hashRule]
  | .list => [.keyString, .listRule]
  | .set => [.keyString, .setRule]
  | .zset => [.keyString]

/-- Embedding of `check_redis_version` (application.py lines 62-70) on the
already-parsed version tuple: `version[0] > 2 or (version[0] == 2 and
version[1] >= 6)` with Python's short-circuit evaluation; `none` models an
`IndexError` from a too-short tuple. -/
def check_redis_version (version : List Nat) : Option Bool :=
  match version with
  | [] => none
  | v0 :: rest =>
    if 2 < v0 then some true
    else if v0 = 2 then rest.head?.map fun v1 => decide (6 ≤ v1)
    else some false

/-- `tuple(map(int, version_str.split('.')))` (application.py line 65) for
well-formed dotted decimal version strings. -/
def parseVersion (s : String) : List Nat :=
  (splitChar '.' s.data).map fun seg =>
    seg.foldl (fun acc c => acc * 10 + (c.toNat - '0'.toNat)) 0

/-- The run gate of `connect_to_redis` (application.py lines 48-59): the
constructor connects before any scan is issued, and when
`check_redis_version` is false the process exits via `sys.exit(-1)`, so no
scan happens and no RunResult is produced; `result` stands for the
RunResult the rest of `run` would build.  `some (.error (-1))` is the
non-zero-exit abort, `some (.ok result)` the successful run. -/
def run_gate {R : Type} (version : List Nat) (result : R) : Option (Except Int R) :=
  (check_redis_version version).map fun ok =>
    if ok then Except.ok result else Except.error (-1)

/-- One step of `keys[v["type"]].append(v)` on the insertion-ordered
`defaultdict(list)` of application.py lines 129-131: append to the
existing bucket of the record's type, else create a fresh one-element
bucket. -/
def addRecord (buckets : List (RedisType × List KeyRecord)) (r : KeyRecord) :
    List (RedisType × List KeyRecord) :=
  match buckets with
  | [] => [(r.type, [r])]
  | (t, l) :: rest =>
    if t = r.type then (t, l ++ [r]) :: rest else (t, l) :: addRecord rest r

/-- The grouping-by-type loop of `RmaApplication.run` (application.py
lines 129-131). -/
def groupByType (records : List KeyRecord) : List (RedisType × List KeyRecord) :=
  records.foldl addRecord []

/-- A census row list sorted by `count` in descending order. -/
def SortedDesc (l : List CensusRow) : Prop :=
  l.Pairwise fun a b => b.count ≤ a.count

/- ------------------------------------------------------------------ -/
/- Theorems                                                           -/
/- ------------------------------------------------------------------ -/

/-- C1: the claim states that a record is a member of a template's group
iff the glob pattern matches the record's **fully** normalized name
(masking then transposition).  The code violates this: line 201 matches
against `ptransform(obj["name"])` without the `:US:` masking of line 194.
Failing input: the single record `"foo:US:abc"` with the covering
template `"foo:US:1"` (the template a deriver sees, since the record's
normalized name is `"foo:US:1"`).  The fully normalized name matches the
template, yet `get_pattern_aggregated_data` leaves the template's group
empty because the unmasked name `"foo:US:abc"` does not match. -/
theorem c1_masking_skipped_at_membership_test :
    Covers ["foo:US:1"] [normalize "foo:US:abc"] ∧
    fnmatch (normalize "foo:US:abc") "foo:US:1" = true ∧
    fnmatch (ptransform "foo:US:abc") "foo:US:1" = false ∧
    get_pattern_aggregated_data [⟨"foo:US:abc", .str, 0, -1⟩] ["foo:US:1"] =
      some [("foo:US:1", [])] := by
  refine ⟨?_, by decide, by decide, by decide⟩
  unfold Covers
  decide

/-- C2: the claim states that the union of all template-group member
lists equals the full scanned record set of the type.  Failing input: the
single HASH record `"bar:US:xyz"` with the covering template
`"bar:US:1"`.  Every group stays empty (the membership test of line 201
skips the masking), so the union is `[]` while the scanned record set is
the one-element list: the record is omitted from every group. -/
theorem c2_union_loses_masked_record :
    Covers ["bar:US:1"]
      (([⟨"bar:US:xyz", .hash, 0, -1⟩] : List KeyRecord).map fun r => normalize r.name) ∧
    ((get_pattern_aggregated_data [⟨"bar:US:xyz", .hash, 0, -1⟩] ["bar:US:1"]).getD
        []).flatMap Prod.snd = ([] : List KeyRecord) ∧
    ([⟨"bar:US:xyz", .hash, 0, -1⟩] : List KeyRecord) ≠ [] := by
  refine ⟨?_, by decide, by decide⟩
  unfold Covers
  decide

theorem maskStep_cons_zero (c : Char) (cs : List Char) :
    maskStep (c :: cs) 0 =
      if c = ':' && isUS cs then c :: maskStep cs 3 else c :: maskStep cs 0 := rfl

theorem maskStep_cons_five (c : Char) (cs : List Char) :
    maskStep (c :: cs) 5 =
      if c = ':' then (if isUS cs then c :: maskStep cs 3 else c :: maskStep cs 0)
      else maskStep cs 5 := rfl

theorem head?_maskStep_zero (l : List Char) : (maskStep l 0).head? = l.head? := by
  cases l with
  | nil => rfl
  | cons c cs =>
    rw [maskStep_cons_zero]
    split <;> rfl

theorem isUS_shape {cs : List Char} (h : isUS cs = true) :
    ∃ d rest, cs = 'U' :: 'S' :: ':' :: d :: rest ∧ (d != ':') = true := by
  unfold isUS at h
  split at h
  · next d rest => exact ⟨d, rest, rfl, h⟩
  · exact absurd h (by simp)

theorem maskStep_five (l : List Char) :
    maskStep l 5 = maskStep (l.dropWhile fun c => c != ':') 0 := by
  induction l with
  | nil => rfl
  | cons c cs ih =>
    by_cases hc : c = ':'
    · subst hc
      rw [maskStep_cons_five, if_pos rfl, List.dropWhile_cons]
      simp [maskStep_cons_zero]
    · rw [maskStep_cons_five, if_neg hc, List.dropWhile_cons]
      simp only [show (c != ':') = true by simpa using hc, if_pos]
      exact ih

theorem dropWhile_colon_shape (l : List Char) :
    l.dropWhile (fun c => c != ':') = [] ∨
      ∃ u, l.dropWhile (fun c => c != ':') = ':' :: u := by
  induction l with
  | nil => exact Or.inl rfl
  | cons c cs ih =>
    by_cases hc : c = ':'
    · subst hc
      right
      exact ⟨cs, by simp [List.dropWhile_cons]⟩
    · rw [List.dropWhile_cons]
      simpa [show (c != ':') = true by simpa using hc] using ih

theorem length_dropWhile_colon_le (l : List Char) :
    (l.dropWhile fun c => c != ':').length ≤ l.length := by
  induction l with
  | nil => simp
  | cons c cs ih =>
    rw [List.dropWhile_cons]
    split
    · exact le_trans ih (Nat.le_succ _)
    · simp

theorem isUS_maskStep_zero {cs : List Char} (h : isUS (maskStep cs 0) = true) :
    isUS cs = true := by
  obtain ⟨d, t, heq, hd⟩ := isUS_shape h
  have h0 : cs.head? = some 'U' := by rw [← head?_maskStep_zero, heq]; rfl
  cases cs with
  | nil => simp at h0
  | cons a as =>
  simp only [List.head?_cons, Option.some.injEq] at h0
  subst h0
  rw [maskStep_cons_zero] at heq
  simp only [show (decide ('U' = ':') && isUS as) = false by simp, Bool.false_eq_true,
    if_false, List.cons.injEq, true_and] at heq
  have h1 : as.head? = some 'S' := by rw [← head?_maskStep_zero, heq]; rfl
  cases as with
  | nil => simp at h1
  | cons b bs =>
  simp only [List.head?_cons, Option.some.injEq] at h1
  subst h1
  rw [maskStep_cons_zero] at heq
  simp only [show (decide ('S' = ':') && isUS bs) = false by simp, Bool.false_eq_true,
    if_false, List.cons.injEq, true_and] at heq
  have h2 : bs.head? = some ':' := by rw [← head?_maskStep_zero, heq]; rfl
  cases bs with
  | nil => simp at h2
  | cons e es =>
  simp only [List.head?_cons, Option.some.injEq] at h2
  subst h2
  rw [maskStep_cons_zero] at heq
  by_cases hU : isUS es = true
  · obtain ⟨f, r, rfl, hf⟩ := isUS_shape hU
    simp [isUS]
  · simp [hU] at heq
    have h3 : es.head? = some d := by rw [← head?_maskStep_zero, heq]; rfl
    cases es with
    | nil => simp at h3
    | cons g gs =>
    simp only [List.head?_cons, Option.some.injEq] at h3
    subst h3
    simpa [isUS] using hd

theorem maskStep_match_eq {d : Char} (hd : (d != ':') = true) (rest : List Char) :
    maskStep (':' :: 'U' :: 'S' :: ':' :: d :: rest) 0 =
      ':' :: 'U' :: 'S' :: ':' :: '1' :: maskStep rest 5 := by
  rw [maskStep_cons_zero]
  have hU : isUS ('U' :: 'S' :: ':' :: d :: rest) = true := by simpa [isUS] using hd
  rw [if_pos (by simp [hU])]
  rfl

theorem maskStep_idem_aux :
    ∀ n, ∀ l : List Char, l.length ≤ n → maskStep (maskStep l 0) 0 = maskStep l 0 := by
  intro n
  induction n with
  | zero =>
    intro l hl
    have hnil : l = [] := List.length_eq_zero.mp (Nat.le_zero.mp hl)
    subst hnil
    rfl
  | succ n ih =>
    intro l hl
    cases l with
    | nil => rfl
    | cons c cs =>
    by_cases hm : (decide (c = ':') && isUS cs) = true
    · rw [Bool.and_eq_true, decide_eq_true_eq] at hm
      obtain ⟨hc, hU⟩ := hm
      subst hc
      obtain ⟨d, rest, rfl, hd⟩ := isUS_shape hU
      rw [maskStep_match_eq hd, maskStep_match_eq (show ('1' != ':') = true from rfl)]
      have hlen : rest.length ≤ n := by
        simp only [List.length_cons] at hl
        omega
      congr 1
      rw [maskStep_five rest]
      rcases dropWhile_colon_shape rest with hR | ⟨u, hR⟩
      · rw [hR]
        rfl
      · have hRlen : (rest.dropWhile fun c => c != ':').length ≤ n :=
          le_trans (length_dropWhile_colon_le rest) hlen
        have hMR := ih _ hRlen
        have hhead : (maskStep (rest.dropWhile fun c => c != ':') 0).head? = some ':' := by
          rw [head?_maskStep_zero, hR]
          rfl
        cases hM : maskStep (rest.dropWhile fun c => c != ':') 0 with
        | nil => simp [hM] at hhead
        | cons m ms =>
          rw [hM] at hhead
          simp only [List.head?_cons, Option.some.injEq] at hhead
          subst hhead
          rw [maskStep_five (':' :: ms)]
          simp only [List.dropWhile_cons, show ((':' : Char) != ':') = false from rfl,
            Bool.false_eq_true, if_false]
          rw [← hM, hMR, hM]
    · have hm' : ¬ (decide (c = ':') && isUS (maskStep cs 0)) = true := by
        intro h
        rw [Bool.and_eq_true] at h
        exact hm (by rw [Bool.and_eq_true]; exact ⟨h.1, isUS_maskStep_zero h.2⟩)
      have hlen : cs.length ≤ n := by
        simp only [List.length_cons] at hl
        omega
      rw [maskStep_cons_zero, if_neg hm, maskStep_cons_zero, if_neg hm', ih cs hlen]

/-- C3 amended: full normalization is **not** idempotent (see the
counterexample below: the `celery-task-meta` transposition re-triggers on
its own output), but the `:US:` identifier-masking stage alone is
idempotent: re-masking a masked string changes nothing, since every
replaced run reads `':US:1'` followed by `':'` or the end of the
string and is rewritten to itself. -/
theorem c3_amended_mask_idempotent (s : String) : mask (mask s) = mask s := by
  unfold mask
  exact congrArg String.mk (maskStep_idem_aux s.data.length s.data le_rfl)

/-- C3 counterexample: normalization is not idempotent.  On
`"celery-task-meta-a"` one application yields `"celery-task-meta:a"`,
which still starts with `celery-task-meta`, so the transposition rule
re-triggers and a second application appends another `':'`. -/
theorem c3_normalize_not_idempotent :
    normalize (normalize "celery-task-meta-a") ≠ normalize "celery-task-meta-a" := by
  decide

/-- C4 counterexample: the spec's section 8 example value is wrong.  The
`celery-task-meta` transposition joins the first **three** dash segments
(`celery`, `task`, `meta`), inserts `':'`, then joins the rest, so the
result is not `"celery-task-meta-aa-bb:cc-dd-ee"`. -/
theorem c4_example_value_wrong :
    normalize "celery-task-meta-aa-bb-cc-dd-ee" ≠ "celery-task-meta-aa-bb:cc-dd-ee" := by
  decide

theorem mem_insertDesc {y r : CensusRow} {l : List CensusRow} :
    y ∈ insertDesc r l ↔ y = r ∨ y ∈ l := by
  induction l with
  | nil => simp [insertDesc]
  | cons x xs ih =>
    unfold insertDesc
    split
    · rw [List.mem_cons, ih, List.mem_cons]
      tauto
    · simp only [List.mem_cons]

theorem insertDesc_sorted {r : CensusRow} {l : List CensusRow} (h : SortedDesc l) :
    SortedDesc (insertDesc r l) := by
  induction l with
  | nil => simp [insertDesc, SortedDesc]
  | cons x xs ih =>
    rw [SortedDesc, List.pairwise_cons] at h
    obtain ⟨hx, hxs⟩ := h
    unfold insertDesc
    split
    · rw [SortedDesc, List.pairwise_cons]
      refine ⟨?_, ih hxs⟩
      intro y hy
      rcases mem_insertDesc.mp hy with rfl | hy'
      · assumption
      · exact hx y hy'
    · rename_i hlt
      rw [SortedDesc, List.pairwise_cons]
      refine ⟨?_, List.Pairwise.cons hx hxs⟩
      intro y hy
      rcases List.mem_cons.mp hy with rfl | hy'
      · omega
      · exact le_trans (hx y hy') (by omega)

theorem sortedDesc_foldl_insert {l : List CensusRow} :
    ∀ acc : List CensusRow, SortedDesc acc →
      SortedDesc (l.foldl (fun a r => insertDesc r a) acc) := by
  induction l with
  | nil => intro acc h; simpa using h
  | cons r rs ih =>
    intro acc h
    exact ih _ (insertDesc_sorted h)

theorem sorted_stableSortDesc (l : List CensusRow) : SortedDesc (stableSortDesc l) :=
  sortedDesc_foldl_insert [] (by simp [SortedDesc])

theorem stableSortDesc_append_single (l : List CensusRow) (r : CensusRow) :
    stableSortDesc (l ++ [r]) = insertDesc r (stableSortDesc l) := by
  unfold stableSortDesc
  rw [List.foldl_append]
  rfl

theorem insertDesc_of_all_ge {r : CensusRow} {acc : List CensusRow}
    (h : ∀ x ∈ acc, r.count ≤ x.count) : insertDesc r acc = acc ++ [r] := by
  induction acc with
  | nil => rfl
  | cons x xs ih =>
    unfold insertDesc
    rw [if_pos (h x (by simp))]
    rw [ih fun y hy => h y (by simp [hy])]
    rfl

theorem foldl_insert_of_sorted :
    ∀ (l acc : List CensusRow),
      (acc ++ l).Pairwise (fun a b => b.count ≤ a.count) →
      l.foldl (fun a r => insertDesc r a) acc = acc ++ l := by
  intro l
  induction l with
  | nil => intro acc _; simp
  | cons r rs ih =>
    intro acc h
    have hr : ∀ x ∈ acc, r.count ≤ x.count := by
      intro x hx
      exact (List.pairwise_append.mp h).2.2 x hx r (by simp)
    show rs.foldl (fun a r => insertDesc r a) (insertDesc r acc) = acc ++ r :: rs
    rw [insertDesc_of_all_ge hr]
    have h' : ((acc ++ [r]) ++ rs).Pairwise (fun a b => b.count ≤ a.count) := by
      simpa using h
    rw [ih (acc ++ [r]) h']
    simp

theorem stableSortDesc_of_sorted {l : List CensusRow} (h : SortedDesc l) :
    stableSortDesc l = l := by
  unfold stableSortDesc
  simpa using foldl_insert_of_sorted l [] (by simpa [SortedDesc] using h)

theorem filter_insertDesc {r : CensusRow} {l : List CensusRow} (h : SortedDesc l) (n : Nat) :
    (insertDesc r l).filter (fun x => x.count == n) =
      if r.count = n then l.filter (fun x => x.count == n) ++ [r]
      else l.filter (fun x => x.count == n) := by
  induction l with
  | nil =>
    simp only [insertDesc, List.filter_nil]
    split <;> simp_all
  | cons x xs ih =>
    rw [SortedDesc, List.pairwise_cons] at h
    obtain ⟨hx, hxs⟩ := h
    unfold insertDesc
    split
    · rw [List.filter_cons, List.filter_cons]
      by_cases hxn : (x.count == n) = true
      · simp only [hxn, if_pos, ih hxs]
        split <;> rfl
      · simp only [hxn, Bool.false_eq_true, if_false, ih hxs]
    · rename_i hlt
      by_cases hrn : r.count = n
      · subst hrn
        have hempty : (x :: xs).filter (fun y => y.count == r.count) = [] := by
          rw [List.filter_eq_nil_iff]
          intro y hy
          rcases List.mem_cons.mp hy with rfl | hy'
          · simp only [beq_iff_eq]
            omega
          · have := hx y hy'
            simp only [beq_iff_eq]
            omega
        have hLHS : (r :: x :: xs).filter (fun y => y.count == r.count) =
            r :: (x :: xs).filter (fun y => y.count == r.count) := by
          rw [List.filter_cons, if_pos (by simp)]
        rw [if_pos rfl, hLHS, hempty]
        rfl
      · have hbn : (r.count == n) = false := by simpa using hrn
        rw [if_neg hrn, List.filter_cons]
        simp [hbn]

theorem filter_foldl_insert {l : List CensusRow} :
    ∀ acc : List CensusRow, SortedDesc acc → ∀ n,
      (l.foldl (fun a r => insertDesc r a) acc).filter (fun x => x.count == n) =
        acc.filter (fun x => x.count == n) ++ l.filter (fun x => x.count == n) := by
  induction l with
  | nil => intro acc _ n; simp
  | cons r rs ih =>
    intro acc hacc n
    show (rs.foldl (fun a r => insertDesc r a) (insertDesc r acc)).filter (fun x => x.count == n) = _
    rw [ih (insertDesc r acc) (insertDesc_sorted hacc) n, filter_insertDesc hacc n,
      List.filter_cons]
    by_cases hrn : r.count = n
    · simp only [if_pos hrn, show (r.count == n) = true by simpa using hrn, if_true]
      simp
    · simp only [if_neg hrn, show (r.count == n) = false by simpa using hrn,
        Bool.false_eq_true, if_false]

theorem filter_stableSortDesc (l : List CensusRow) (n : Nat) :
    (stableSortDesc l).filter (fun x => x.count == n) = l.filter (fun x => x.count == n) := by
  unfold stableSortDesc
  simpa using filter_foldl_insert [] (by simp [SortedDesc]) n

theorem mem_stableSortDesc {y : CensusRow} {l : List CensusRow} :
    y ∈ stableSortDesc l ↔ y ∈ l := by
  unfold stableSortDesc
  suffices h : ∀ acc, y ∈ l.foldl (fun a r => insertDesc r a) acc ↔ y ∈ acc ∨ y ∈ l by
    simpa using h []
  induction l with
  | nil => simp
  | cons r rs ih =>
    intro acc
    show y ∈ rs.foldl (fun a r => insertDesc r a) (insertDesc r acc) ↔ _
    rw [ih (insertDesc r acc)]
    simp [mem_insertDesc]
    tauto

theorem resort_eq_foldl_insert :
    ∀ (rows acc : List CensusRow), SortedDesc acc →
      rows.foldl (fun keys r => stableSortDesc (keys ++ [r])) acc =
        rows.foldl (fun a r => insertDesc r a) acc := by
  intro rows
  induction rows with
  | nil => intro acc _; rfl
  | cons r rs ih =>
    intro acc hacc
    show rs.foldl (fun keys r => stableSortDesc (keys ++ [r])) (stableSortDesc (acc ++ [r])) = _
    rw [stableSortDesc_append_single, stableSortDesc_of_sorted hacc,
      ih (insertDesc r acc) (insertDesc_sorted hacc)]
    rfl

theorem do_scanner_eq_sort (dbsize limit : Nat)
    (res : List (RedisType × List (String × List KeyRecord))) :
    do_scanner dbsize limit res = stableSortDesc (censusRows dbsize limit res) := by
  unfold do_scanner
  rw [resort_eq_foldl_insert (censusRows dbsize limit res) [] (by simp [SortedDesc])]
  rfl

/-- C6: the census row list returned by the scanner branch is sorted by
`count` in descending order; rows with equal count keep their insertion
(append) order — formalized by the filter-stability equation: restricted
to any fixed count value, the output lists the rows exactly in the order
`censusRows` appends them; and the per-append re-sorting of line 167
produces the same final list as one stable descending sort applied after
all insertions. -/
theorem c6_census_ordering (dbsize limit : Nat)
    (res : List (RedisType × List (String × List KeyRecord))) :
    do_scanner dbsize limit res = stableSortDesc (censusRows dbsize limit res) ∧
    SortedDesc (do_scanner dbsize limit res) ∧
    ∀ n, (do_scanner dbsize limit res).filter (fun x => x.count == n) =
      (censusRows dbsize limit res).filter (fun x => x.count == n) := by
  refine ⟨do_scanner_eq_sort dbsize limit res, ?_, ?_⟩
  · rw [do_scanner_eq_sort]
    exact sorted_stableSortDesc _
  · intro n
    rw [do_scanner_eq_sort]
    exact filter_stableSortDesc _ n

/-- C5: every census row's percent lies in `[0, 100]` and equals
`100 × count / min(dbsize, limit)` floored to two decimal places: the
denominator of line 159 (`total = min(r.dbsize(), self.limit)`) is the
whole-store population, never the per-type record count.  The hypotheses
come from the scanner collaborator's contract (spec section 6): at most
`min(dbsize, limit)` records are scanned at all, so every group is at
most that large, and a scanned record implies a non-empty store. -/
theorem c5_census_percent (dbsize limit : Nat)
    (res : List (RedisType × List (String × List KeyRecord)))
    (hpos : 0 < min dbsize limit)
    (hbound : ∀ tkv ∈ res, ∀ kv ∈ tkv.2, (kv.2 : List KeyRecord).length ≤ min dbsize limit) :
    ∀ row ∈ do_scanner dbsize limit res,
      0 ≤ row.percent ∧ row.percent ≤ 100 ∧
      row.percent =
        (⌊100 * (row.count : ℚ) / ((min dbsize limit : Nat) : ℚ) * 100⌋ : ℚ) / 100 := by
  intro row hrow
  rw [do_scanner_eq_sort, mem_stableSortDesc] at hrow
  unfold censusRows at hrow
  rw [List.mem_flatMap] at hrow
  obtain ⟨tkv, htkv, hrow⟩ := hrow
  rw [List.mem_map] at hrow
  obtain ⟨kv, hkv, rfl⟩ := hrow
  have htpos : (0 : ℚ) < ((min dbsize limit : Nat) : ℚ) := by exact_mod_cast hpos
  have hc : ((kv.2.length : ℚ)) ≤ ((min dbsize limit : Nat) : ℚ) := by
    exact_mod_cast hbound tkv htkv kv hkv
  have hdiv1 : (kv.2.length : ℚ) / ((min dbsize limit : Nat) : ℚ) ≤ 1 :=
    (div_le_one htpos).mpr hc
  have hdiv0 : (0 : ℚ) ≤ (kv.2.length : ℚ) / ((min dbsize limit : Nat) : ℚ) :=
    div_nonneg (by positivity) (le_of_lt htpos)
  refine ⟨?_, ?_, ?_⟩
  · show (0 : ℚ) ≤ flooredPercentage _
    unfold flooredPercentage
    apply div_nonneg _ (by norm_num)
    exact_mod_cast Int.floor_nonneg.mpr (by positivity)
  · show flooredPercentage _ ≤ 100
    unfold flooredPercentage
    rw [div_le_iff₀ (by norm_num : (0:ℚ) < 100)]
    calc (⌊(kv.2.length : ℚ) / ((min dbsize limit : Nat) : ℚ) * 10000⌋ : ℚ) ≤
        (kv.2.length : ℚ) / ((min dbsize limit : Nat) : ℚ) * 10000 := Int.floor_le _
      _ ≤ 1 * 10000 := by
        apply mul_le_mul_of_nonneg_right hdiv1 (by norm_num)
      _ = 100 * 100 := by norm_num
  · show flooredPercentage _ = _
    unfold flooredPercentage
    congr 2
    ring_nf

/-- Witness for C5 at a concrete input: two STRING records grouped under
one template, `dbsize = 4`, effective `limit = 2`, so the single census
row has count 2 and percent `100`. -/
theorem c5_census_percent_witness :
    (0 : ℚ) ≤ flooredPercentage (((["a", "b"] : List String).length : ℚ) / ((min 4 2 : Nat) : ℚ)) ∧
    flooredPercentage (((["a", "b"] : List String).length : ℚ) / ((min 4 2 : Nat) : ℚ)) ≤ 100 ∧
    flooredPercentage (((["a", "b"] : List String).length : ℚ) / ((min 4 2 : Nat) : ℚ)) =
      (⌊100 * ((2 : Nat) : ℚ) / ((min 4 2 : Nat) : ℚ) * 100⌋ : ℚ) / 100 := by
  have h := c5_census_percent 4 2
    [(.str, [("user:*:p", [⟨"user:1:p", .str, 0, -1⟩, ⟨"user:2:p", .str, 0, -1⟩])])]
    (by norm_num)
    (by
      intro tkv htkv kv hkv
      simp only [List.mem_singleton] at htkv
      subst htkv
      simp only [List.mem_singleton] at hkv
      subst hkv
      norm_num)
    ⟨"user:*:p", 2, "string",
      flooredPercentage
        ((([⟨"user:1:p", .str, 0, -1⟩, ⟨"user:2:p", .str, 0, -1⟩] :
            List KeyRecord).length : ℚ) / ((min 4 2 : Nat) : ℚ))⟩
    (by
      rw [do_scanner_eq_sort, mem_stableSortDesc]
      unfold censusRows
      simp [type_id_to_redis_type])
  simpa using h

theorem foldl_dictSet_last {γ β : Type} (k : String) (g : γ → β) :
    ∀ (rs : List γ) (v : β),
      rs.foldl (fun m r => dictSet m k (g r)) [(k, v)] =
        [(k, rs.foldl (fun _ r => g r) v)] := by
  intro rs
  induction rs with
  | nil => intro v; rfl
  | cons r rest ih =>
    intro v
    show rest.foldl _ (dictSet [(k, v)] k (g r)) = _
    have hstep : dictSet [(k, v)] k (g r) = [(k, g r)] := by simp [dictSet]
    rw [hstep, ih]
    rfl

theorem foldl_const_getLast {γ β : Type} (g : γ → β) :
    ∀ (rs : List γ) (v : β) (h : rs ≠ []),
      rs.foldl (fun _ r => g r) v = g (rs.getLast h) := by
  intro rs
  induction rs with
  | nil => intro v h; exact absurd rfl h
  | cons r rest ih =>
    intro v h
    cases rest with
    | nil => rfl
    | cons r' rest' =>
      show (r' :: rest').foldl (fun _ x => g x) (g r) = _
      rw [ih (g r) (by simp)]
      exact congrArg g (List.getLast_cons (by simp)).symm

/-- C7: in `do_ram`, when a type has more than one registered rule, the
returned stat map holds exactly the output of the **last** registered
rule for that type applied to the type's aggregated groups and total
record count — not a merge of earlier rules' outputs, since every rule
writes to the same `ret[redis_type]` slot (application.py line 181). -/
theorem c7_last_write_wins {Stat : Type} (rules : RedisType → List (RuleFun Stat))
    (t : RedisType) (accepted : List RedisType) (aggr : List (String × List KeyRecord))
    (r1 r2 : RuleFun Stat) (rest : List (RuleFun Stat))
    (hacc : t ∈ accepted) (hr : rules t = r1 :: r2 :: rest) :
    do_ram rules accepted [(t, aggr)] =
      [(type_id_to_redis_type t,
        ((r1 :: r2 :: rest).getLast (by simp)) aggr (total_keys aggr))] := by
  unfold do_ram
  rw [List.foldl_cons, List.foldl_nil, if_pos hacc, hr]
  rw [List.foldl_cons]
  have hfirst : dictSet ([] : List (String × Stat)) (type_id_to_redis_type t)
      (r1 aggr (total_keys aggr)) = [(type_id_to_redis_type t, r1 aggr (total_keys aggr))] := rfl
  rw [hfirst, foldl_dictSet_last,
    foldl_const_getLast (fun rule => rule aggr (total_keys aggr)) (r2 :: rest) _ (by simp)]
  have hgl : (r2 :: rest).getLast (by simp) = (r1 :: r2 :: rest).getLast (by simp) :=
    (List.getLast_cons (by simp)).symm
  rw [hgl]

/-- Witness for C7: a type with two registered rules (outputs `1` then
`2`); the ram result holds the second rule's output `2`. -/
theorem c7_last_write_wins_witness :
    do_ram (fun _ => [(fun _ _ => (1 : Nat)), (fun _ _ => 2)]) [RedisType.str]
      [(RedisType.str, [])] = [("string", 2)] := by
  have h := c7_last_write_wins (fun _ => [(fun _ _ => (1 : Nat)), (fun _ _ => 2)])
    RedisType.str [RedisType.str] [] (fun _ _ => 1) (fun _ _ => 2) [] (by simp) rfl
  simpa using h

/-- C8: ZSET registers only the key-name-cost rule (`KeyString`), unlike
STRING, HASH, LIST and SET, which each register `KeyString` followed by a
value-cost rule; consequently a ram run restricted to zset produces a
`"zset"` stat entry that is the output of the key-name-cost rule alone,
whatever the (external) rules compute. -/
theorem c8_zset_key_rule_only {Stat : Type} (interp : RuleTag → RuleFun Stat)
    (aggr : List (String × List KeyRecord)) :
    init_types_rules .zset = [.keyString] ∧
    init_types_rules .str = [.keyString, .valueString] ∧
    init_types_rules .hash = [.keyString, .hashRule] ∧
    init_types_rules .list = [.keyString, .listRule] ∧
    init_types_rules .set = [.keyString, .setRule] ∧
    do_ram (fun t => (init_types_rules t).map interp) [RedisType.zset]
      [(RedisType.zset, aggr)] =
      [("zset", interp .keyString aggr (total_keys aggr))] := by
  refine ⟨rfl, rfl, rfl, rfl, rfl, ?_⟩
  unfold do_ram
  rw [List.foldl_cons, List.foldl_nil, if_pos (by simp)]
  rfl

/-- C9: the run proceeds past connection iff the reported version has
`major > 2` or `major = 2 ∧ minor ≥ 6`; on a failing version such as
`"2.4.0"` the gate aborts with exit code `-1` before any scan, producing
no RunResult. -/
theorem c9_version_gate {R : Type} (result : R) (v0 v1 : Nat) (rest : List Nat) :
    (run_gate (v0 :: v1 :: rest) result = some (Except.ok result) ↔
      2 < v0 ∨ (v0 = 2 ∧ 6 ≤ v1)) ∧
    run_gate (parseVersion "2.4.0") result = some (Except.error (-1)) := by
  constructor
  · unfold run_gate check_redis_version
    by_cases h0 : 2 < v0
    · simp [h0]
    · by_cases h2 : v0 = 2
      · subst h2
        by_cases h1 : 6 ≤ v1 <;> simp [h1]
      · simp [h0, h2]
  · have hparse : parseVersion "2.4.0" = [2, 4, 0] := by decide
    rw [hparse]
    rfl

theorem addRecord_buckets_nonempty {buckets : List (RedisType × List KeyRecord)}
    {r : KeyRecord} (h : ∀ p ∈ buckets, p.2 ≠ ([] : List KeyRecord)) :
    ∀ p ∈ addRecord buckets r, p.2 ≠ ([] : List KeyRecord) := by
  induction buckets with
  | nil =>
    intro p hp
    simp only [addRecord, List.mem_singleton] at hp
    subst hp
    simp
  | cons q rest ih =>
    obtain ⟨t, l⟩ := q
    intro p hp
    simp only [addRecord] at hp
    split at hp
    · rcases List.mem_cons.mp hp with hpq | hp'
      · subst hpq
        simp
      · exact h p (List.mem_cons_of_mem _ hp')
    · rcases List.mem_cons.mp hp with hpq | hp'
      · subst hpq
        exact h (t, l) (by simp)
      · exact ih (fun q' hq' => h q' (List.mem_cons_of_mem _ hq')) p hp'

theorem groupByType_buckets_nonempty (records : List KeyRecord) :
    ∀ p ∈ groupByType records, p.2 ≠ ([] : List KeyRecord) := by
  unfold groupByType
  suffices h : ∀ acc, (∀ p ∈ acc, p.2 ≠ ([] : List KeyRecord)) →
      ∀ p ∈ records.foldl addRecord acc, p.2 ≠ ([] : List KeyRecord) by
    exact h [] (by simp)
  induction records with
  | nil => intro acc hacc; simpa using hacc
  | cons r rs ih =>
    intro acc hacc
    exact ih (addRecord acc r) (addRecord_buckets_nonempty hacc)

/-- C10: every per-type record list built by the grouping loop of `run`
is non-empty — a type key exists only after a record of that type was
appended — so the `data[0]['type']` access inside
`get_pattern_aggregated_data` (modelled by the `head?` guard) always
succeeds on the lists `run` passes to it. -/
theorem c10_bucket_lists_nonempty (records : List KeyRecord) (pats : List String) :
    ∀ p ∈ groupByType records,
      (get_pattern_aggregated_data p.2 pats).isSome = true := by
  intro p hp
  have hne : p.2 ≠ [] := groupByType_buckets_nonempty records p hp
  unfold get_pattern_aggregated_data
  cases hh : p.2 with
  | nil => exact absurd hh hne
  | cons a as => simp

/-- Witness for C10: one scanned record produces one STRING bucket, and
`get_pattern_aggregated_data` succeeds on it. -/
theorem c10_bucket_lists_nonempty_witness :
    (get_pattern_aggregated_data
      ((RedisType.str, [⟨"a", RedisType.str, 0, -1⟩]) : RedisType × List KeyRecord).2
      ["*"]).isSome = true :=
  c10_bucket_lists_nonempty [⟨"a", RedisType.str, 0, -1⟩] ["*"]
    (RedisType.str, [⟨"a", RedisType.str, 0, -1⟩]) (by decide)

/-- C4 amended: normalizing `"celery-task-meta-aa-bb-cc-dd-ee"` yields
`"celery-task-meta:aa-bb-cc-dd-ee"` — the first three dash segments, a
`':'`, then the remaining segments joined by `'-'` (this is also what the
spec's own section 4.1 rule prescribes). -/
theorem c4_amended_value :
    normalize "celery-task-meta-aa-bb-cc-dd-ee" = "celery-task-meta:aa-bb-cc-dd-ee" := by
  decide

end Rma
